import Mathlib

/-!
Verification development for an MDKP (multidimensional knapsack) repair
heuristic written in Python (files: main.py and algo_de_réparation.py).

Shallow embedding conventions:
* A binary selection (numpy 0/1 int vector) is a `List Bool`.
* Resource weights and capacities are parsed with `int` in the source and
  are embedded as `Int`; profits are parsed with `float` and are embedded
  as `Rat` (the concrete benchmark values are exact in both).
* Python float division of profits by a positive consumption is embedded
  exactly as a numerator/denominator pair (`FracVal`) compared by integer
  cross multiplication; the lemma `fracLtB_correct` shows this comparison
  agrees with the rational (real-number) comparison.  Numpy elementwise
  division, which produces `inf`/`-inf`/`nan` on a zero divisor, is
  embedded by `NpVal`/`npDiv` below.
* Exceptions raised by the Python code (IndexError, ValueError) are
  embedded as `Option`/`Except` failures.
* List accesses that the instance well-formedness invariant (spec §3:
  row length = n_projects, etc.) keeps in range are embedded with `getD`.
-/

/-- One parsed MDKP instance, mirroring the dict built by the parsers:
keys n_projects, m_resources, optimal_value, gains/profits,
resources_consumed, resources_available. -/
structure Instance where
  n_projects : Nat
  m_resources : Nat
  optimal_value : Rat
  gains : List Rat
  weights : List (List Int)
  capacities : List Int
deriving Repr, DecidableEq

/-- Consumption of one resource row by a selection:
`Σ_j row[j] * solution[j]` (one component of `np.dot(resource_consumption, solution)`). -/
def rowCons (row : List Int) (sol : List Bool) : Int :=
  (List.zipWith (fun w b => if b then w else 0) row sol).sum

/-- The per-resource consumption vector `np.dot(resource_consumption, solution)`. -/
def consumption (inst : Instance) (sol : List Bool) : List Int :=
  inst.weights.map (fun row => rowCons row sol)

/-- The loop guard value `np.all(current_consumption <= resource_availability)`. -/
def feasibleB (inst : Instance) (sol : List Bool) : Bool :=
  (List.zipWith (fun c cap => decide (c ≤ cap)) (consumption inst sol) inst.capacities).all id

/-- Total consumption of one project across all resources:
`np.sum(resource_consumption[:, project])`. -/
def colSum (inst : Instance) (j : Nat) : Int :=
  (inst.weights.map (fun row => row.getD j 0)).sum

/-- An exact embedding of a Python float quotient: value `num / den`,
with `den > 0` at every construction site. -/
structure FracVal where
  num : Rat
  den : Int
deriving Repr, DecidableEq

/-- Strict comparison of two quotients by integer cross multiplication
(sound when both denominators are positive, which holds at every use). -/
def fracLtB (a b : FracVal) : Bool :=
  decide (a.num.num * b.num.den * b.den < b.num.num * a.num.den * a.den)

/-- The live ratio of a selected project in `repair_solution`:
`gains[project] / total_consumption if total_consumption > 0 else 0`. -/
def liveRatio (inst : Instance) (j : Nat) : FracVal :=
  if 0 < colSum inst j then ⟨inst.gains.getD j 0, colSum inst j⟩ else ⟨0, 1⟩

/-- `min(ratios, key=lambda x: x[1])`: Python's `min` keeps the first
element whose key is strictly smaller than the current best, hence
returns the first minimum. `none` embeds the `ValueError` that `min`
raises on an empty list. -/
def argminKey (l : List (Nat × FracVal)) : Option (Nat × FracVal) :=
  match l with
  | [] => none
  | x :: xs => some (xs.foldl (fun best y => if fracLtB y.2 best.2 then y else best) x)

/-- `np.where(solution == 1)[0]`: the indices of the selected projects,
in ascending order. -/
def selectedProjects (sol : List Bool) : List Nat :=
  (List.range sol.length).filter (fun j => sol.getD j false)

/-- The `ratios` list of `repair_solution`: `(project, live ratio)` for
each selected project, in ascending project order. -/
def ratiosList (inst : Instance) (sol : List Bool) : List (Nat × FracVal) :=
  (selectedProjects sol).map (fun j => (j, liveRatio inst j))

/-- One iteration of the `while` body of `repair_solution`: collect the
selected projects, compute their live ratios, remove the first worst
one. -/
def stepA (inst : Instance) (sol : List Bool) : Option (List Bool) :=
  match argminKey (ratiosList inst sol) with
  | none => none
  | some w => some (sol.set w.1 false)

/-- The `while not np.all(...)` loop of `repair_solution`, with explicit
fuel; `none` embeds a Python exception (never reached from
`repair_solution` when capacities are non-negative, see `loopA_ok`). -/
def loopA (inst : Instance) (fuel : Nat) (sol : List Bool) : Option (List Bool) :=
  match fuel with
  | 0 => none
  | f + 1 =>
    if feasibleB inst sol then some sol
    else
      match stepA inst sol with
      | none => none
      | some sol2 => loopA inst f sol2

/-- `repair_solution(solution, instance)` from algo_de_réparation.py
(Policy A: recompute worst live ratio). The loop removes one selected
project per iteration, so `sol.length + 1` fuel is never exhausted. -/
def repair_solution (inst : Instance) (sol : List Bool) : Option (List Bool) :=
  loopA inst (sol.length + 1) sol

/-- Number of selected projects. -/
def countSelected (sol : List Bool) : Nat :=
  sol.count true

/-- Pointwise order on selections: every project selected in `a` is
selected in `b`. -/
def selLe (a b : List Bool) : Prop :=
  ∀ j, a.getD j false = true → b.getD j false = true

/-- The rational value denoted by a `FracVal` (meaningful when the
denominator is positive, which holds at every construction site). -/
def FracVal.val (f : FracVal) : Rat :=
  f.num / (f.den : Rat)

/-- `np.dot(repaired_solution, gains)`: the objective value. -/
def majorant (inst : Instance) (sol : List Bool) : Rat :=
  (List.zipWith (fun g b => if b then g else (0 : Rat)) inst.gains sol).sum

/-- Python negative indexing `l[-i]` for `i ≥ 1`: in range iff
`1 ≤ i ≤ len(l)`, out of range raises IndexError (`none`). -/
def negGet (l : List Nat) (i : Nat) : Option Nat :=
  if 1 ≤ i ∧ i ≤ l.length then l.get? (l.length - i) else none

/-- One iteration of the `while` body of `repair_heuristic` in main.py:
read `sorted_idx[-idx]`; if that project is already deselected, advance
`idx` once and re-read (the source performs this skip only once, with no
further check); set the chosen entry to 0; advance `idx`.  Returns the
new solution and the new `idx`; `none` embeds the IndexError of an
out-of-range access. -/
def stepB (sortedIdx : List Nat) (sol : List Bool) (idx : Nat) :
    Option (List Bool × Nat) :=
  match negGet sortedIdx idx with
  | none => none
  | some bad =>
    if sol.getD bad false = false then
      match negGet sortedIdx (idx + 1) with
      | none => none
      | some bad2 => some (sol.set bad2 false, idx + 2)
    else
      some (sol.set bad false, idx + 1)

/-- The `while np.any(total_consumption > resources_available)` loop of
`repair_heuristic`, with explicit fuel. -/
def loopB (inst : Instance) (sortedIdx : List Nat) (fuel : Nat)
    (sol : List Bool) (idx : Nat) : Option (List Bool) :=
  match fuel with
  | 0 => none
  | f + 1 =>
    if feasibleB inst sol then some sol
    else
      match stepB sortedIdx sol idx with
      | none => none
      | some p => loopB inst sortedIdx f p.1 p.2

/-- `repair_heuristic(instance, glouton_solution, sorted_idx)` from
main.py (Policy B: fixed reverse-order scan), starting at `idx = 1`.
`idx` strictly increases and stays at most `len(sorted_idx)`, so with a
rank order covering all projects `sol.length + 1` fuel is never
exhausted (see `loopB_ok`). -/
def repair_heuristic (inst : Instance) (gloutonSolution : List Bool)
    (sortedIdx : List Nat) : Option (List Bool) :=
  loopB inst sortedIdx (gloutonSolution.length + 1) gloutonSolution 1

/-- A numpy float64 value as produced by elementwise division: an exact
finite quotient (denominator kept positive), `inf`, `-inf`, or `nan`. -/
inductive NpVal where
  | fin : Rat → Int → NpVal
  | posInf : NpVal
  | negInf : NpVal
  | nan : NpVal
deriving Repr, DecidableEq

/-- Numpy elementwise float division `p / w`: finite exact quotient for
`w ≠ 0` (sign moved to the numerator so the denominator is positive),
`±inf` for `p ≠ 0, w = 0`, `nan` for `0 / 0`. -/
def npDiv (p : Rat) (w : Int) : NpVal :=
  if 0 < w then .fin p w
  else if w < 0 then .fin (-p) (-w)
  else if 0 < p then .posInf
  else if p < 0 then .negInf
  else .nan

/-- Numpy unary negation on float64 (`-ratios`); `-nan` stays `nan`. -/
def npNeg : NpVal → NpVal
  | .fin p w => .fin (-p) w
  | .posInf => .negInf
  | .negInf => .posInf
  | .nan => .nan

/-- The strict `<` used by numpy's float64 sort: IEEE `<` on numbers and
infinities, and `nan` ordered after everything (numpy sorts nans to the
end): `LT(a,b) = a < b or (a == a and b != b)`. Finite values compare by
integer cross multiplication (denominators positive by construction). -/
def npLt : NpVal → NpVal → Bool
  | .fin a c, .fin b d => decide (a.num * b.den * d < b.num * a.den * c)
  | .fin _ _, .posInf => true
  | .fin _ _, .negInf => false
  | .fin _ _, .nan => true
  | .posInf, .nan => true
  | .posInf, _ => false
  | .negInf, .negInf => false
  | .negInf, .nan => true
  | .negInf, _ => true
  | .nan, _ => false

/-- Stable insertion of index `i` into an index list already sorted
ascending by `keys`: `i` goes before the first strictly greater key,
after equal keys.  This is numpy's insertion sort, which `np.argsort`
(default quicksort kind) runs verbatim on arrays of at most 16 elements;
for larger arrays numpy's introsort is unstable and this embedding fixes
the tie order that the library leaves unspecified. -/
def insertAsc (keys : List NpVal) (i : Nat) : List Nat → List Nat
  | [] => [i]
  | j :: js =>
    if npLt (keys.getD i .nan) (keys.getD j .nan) then i :: j :: js
    else j :: insertAsc keys i js

/-- `np.argsort(keys)`: indices `0..len-1` sorted ascending by key. -/
def argsortAsc (keys : List NpVal) : List Nat :=
  (List.range keys.length).foldl (fun acc i => insertAsc keys i acc) []

/-- `surrogate_relaxation(instance)` from main.py: per-project summed
weight `Σ_i weights[i][j]` and the summed capacity. -/
def surrogate_relaxation (inst : Instance) : List Int × Int :=
  ((List.range inst.n_projects).map (fun j =>
      ((List.range inst.m_resources).map
        (fun i => (inst.weights.getD i []).getD j 0)).sum),
    inst.capacities.sum)

/-- `glouton_heuristic(profits, surrogate_weights, total_resources_available)`
from main.py: `ratios = profits / surrogate_weights` (numpy elementwise
division), `sorted_idx = np.argsort(-ratios)`, then the greedy fill that
includes a project iff its surrogate weight fits the remaining surrogate
capacity.  Returns `(solution, sorted_idx)`. -/
def glouton_heuristic (profits : List Rat) (surrogateWeights : List Int)
    (totalAvailable : Int) : List Bool × List Nat :=
  let n := profits.length
  let ratios := List.zipWith npDiv profits surrogateWeights
  let sortedIdx := argsortAsc (ratios.map npNeg)
  let fill := sortedIdx.foldl
    (fun (p : List Bool × Int) idx =>
      if surrogateWeights.getD idx 0 ≤ p.2 then
        (p.1.set idx true, p.2 - surrogateWeights.getD idx 0)
      else p)
    (List.replicate n false, totalAvailable)
  (fill.1, sortedIdx)

/-- A parsed instance as the dicts built by `parse_instance` (main.py)
and `read_instances` (algo_de_réparation.py): declared counts kept as
Python ints.  Tokens are embedded as integers: textual tokenizing is
outside the system boundary (spec §1) and the count-checking behaviour
under scrutiny is independent of token values. -/
structure ParsedInstance where
  n_projects : Int
  m_resources : Int
  optimal_value : Int
  profits : List Int
  resources_consumed : List (List Int)
  resources_available : List Int
deriving Repr, DecidableEq

/-- Count guarantees that `parse_instance` enforces on every instance it
returns: profits and each weight row hold at least the declared number
of tokens, there are exactly `m_resources` weight rows, and the
capacity list holds at least `m_resources` tokens (`parse_instance_ok`). -/
def parseChecked (inst : ParsedInstance) : Prop :=
  inst.n_projects ≤ (inst.profits.length : Int) ∧
  inst.resources_consumed.length = inst.m_resources.toNat ∧
  (∀ row ∈ inst.resources_consumed, inst.n_projects ≤ (row.length : Int)) ∧
  inst.m_resources ≤ (inst.resources_available.length : Int)

/-- Count guarantees that `read_instances` enforces: gains hold exactly
the declared number of tokens, weight rows as in `parse_instance`; the
capacity list is NOT checked (`read_instances_ok`). -/
def readChecked (inst : ParsedInstance) : Prop :=
  (inst.profits.length : Int) = inst.n_projects ∧
  inst.resources_consumed.length = inst.m_resources.toNat ∧
  (∀ row ∈ inst.resources_consumed, inst.n_projects ≤ (row.length : Int))

/-- Spec §8 scenario 1: profits `[10,20,15]`, one resource
`[[2,3,4]]`, capacity `[5]`; no reference optimum given. -/
def scnInstance1 : Instance := ⟨3, 1, 0, [10, 20, 15], [[2, 3, 4]], [5]⟩

/-- Spec §8 scenario 2: profits `[6,5,8]`, one resource `[[5,4,7]]`,
capacity `[8]`. -/
def scnInstance2 : Instance := ⟨3, 1, 0, [6, 5, 8], [[5, 4, 7]], [8]⟩

/-- Spec §8 scenario 3 (zero-footprint edge case): profits `[3,10]`,
one resource `[[0,5]]`, capacity `[4]`. -/
def scnInstance3 : Instance := ⟨2, 1, 0, [3, 10], [[0, 5]], [4]⟩

/-- A tie instance: project 0 consumes resources but has profit 0
(ratio 0), project 1 has a zero footprint (ratio forced to 0). -/
def tieInstance : Instance := ⟨2, 1, 0, [0, 3], [[5, 0]], [4]⟩

/-- An instance whose rank order is `[0,1,2]` (ratios 6/5, 1, 1). With
the initial selection `[1,0,0]` the two worst scan positions are both
already deselected. -/
def skipInstance : Instance := ⟨3, 1, 0, [6, 1, 1], [[5, 1, 1]], [4]⟩

/-- A six-line input whose capacity line holds 1 token although the
header declares 2 resources, the file ending right after it. -/
def shortCapLines : List (List Int) :=
  [[1], [2, 2, 10], [3, 4], [1, 1], [2, 2], [5]]

instance {ε α : Type} [DecidableEq ε] [DecidableEq α] :
    DecidableEq (Except ε α) := fun a b =>
  match a, b with
  | .error e1, .error e2 =>
    decidable_of_iff (e1 = e2) ⟨fun h => by rw [h], fun h => by injection h⟩
  | .error _, .ok _ => isFalse (fun h => Except.noConfusion h)
  | .ok _, .error _ => isFalse (fun h => Except.noConfusion h)
  | .ok v1, .ok v2 =>
    decidable_of_iff (v1 = v2) ⟨fun h => by rw [h], fun h => by injection h⟩

/-!
Both parsers walk the line list through a monotone cursor
(`index` / `current_line`); the embedding threads the remaining suffix
of the line list instead of the cursor, which is the same state and
makes every recursion structural.  An out-of-range access
(`lines[index]` with the suffix empty) is Python's IndexError; in
`parse_instance` the same condition is raised explicitly by the
`if index >= len(lines)` guards.
-/

/-- The shared shape of the token-collecting `while` loops of both
parsers: keep appending whole lines while fewer than `target` tokens
have been collected. -/
def collectTokens (rest : List (List Int)) (acc : List Int)
    (target : Int) : Except String (List Int × List (List Int)) :=
  if (acc.length : Int) < target then
    match rest with
    | [] => .error "IndexError"
    | line :: rest2 => collectTokens rest2 (acc ++ line) target
  else .ok (acc, rest)

/-- The `for i in range(m_resources)` loop of `parse_instance`: each row
is seeded from a freshly read line (after an explicit end-of-input
check) and extended until it holds at least `target` tokens. -/
def parseRows (rest : List (List Int)) (k : Nat) (target : Int) :
    Except String (List (List Int) × List (List Int)) :=
  match k with
  | 0 => .ok ([], rest)
  | kk + 1 =>
    match rest with
    | [] => .error "IndexError"
    | row0 :: rest1 =>
      match collectTokens rest1 row0 target with
      | .error e => .error e
      | .ok rp =>
        match parseRows rp.2 kk target with
        | .error e => .error e
        | .ok rr => .ok (rp.1 :: rr.1, rr.2)

/-- The `for _ in range(m_resources)` loop of `read_instances`: each row
starts empty and is extended by whole lines until it holds at least
`target` tokens. -/
def readRows (rest : List (List Int)) (k : Nat) (target : Int) :
    Except String (List (List Int) × List (List Int)) :=
  match k with
  | 0 => .ok ([], rest)
  | kk + 1 =>
    match collectTokens rest [] target with
    | .error e => .error e
    | .ok rp =>
      match readRows rp.2 kk target with
      | .error e => .error e
      | .ok rr => .ok (rp.1 :: rr.1, rr.2)

/-- One instance of `parse_instance`: the header is unpacked into
exactly three tokens (ValueError otherwise), profits are seeded from
one unconditionally read line then extended to `n_projects` tokens,
then `m_resources` weight rows, then capacities seeded from one line
(after an explicit check) and extended to `m_resources` tokens. -/
def parseOneInstance (rest : List (List Int)) :
    Except String (ParsedInstance × List (List Int)) :=
  match rest with
  | [] => .error "IndexError"
  | header :: rest1 =>
    match header with
    | [np0, mr0, vopt] =>
      match rest1 with
      | [] => .error "IndexError"
      | profits0 :: rest2 =>
        match collectTokens rest2 profits0 np0 with
        | .error e => .error e
        | .ok pp =>
          match parseRows pp.2 mr0.toNat np0 with
          | .error e => .error e
          | .ok rr =>
            match rr.2 with
            | [] => .error "IndexError"
            | caps0 :: rest3 =>
              match collectTokens rest3 caps0 mr0 with
              | .error e => .error e
              | .ok cc => .ok (⟨np0, mr0, vopt, pp.1, rr.1, cc.1⟩, cc.2)
    | _ => .error "ValueError"

/-- The `for _ in range(n_instances)` loop of `parse_instance`. -/
def parseManyInstances (rest : List (List Int)) (k : Nat) :
    Except String (List ParsedInstance × List (List Int)) :=
  match k with
  | 0 => .ok ([], rest)
  | kk + 1 =>
    match parseOneInstance rest with
    | .error e => .error e
    | .ok ip =>
      match parseManyInstances ip.2 kk with
      | .error e => .error e
      | .ok rr => .ok (ip.1 :: rr.1, rr.2)

/-- `parse_instance(file_path)` from main.py, over the non-empty lines
of the file, each line a list of numeric tokens.  The first line must
hold the single token `n_instances`. -/
def parse_instance (lines : List (List Int)) :
    Except String (List ParsedInstance) :=
  match lines with
  | [] => .error "IndexError"
  | l0 :: rest =>
    match l0 with
    | [nInst] =>
      match parseManyInstances rest nInst.toNat with
      | .error e => .error e
      | .ok r => .ok r.1
    | _ => .error "ValueError"

/-- One instance of `read_instances`: the header line must hold exactly
three tokens (ValueError otherwise), gains are collected from an empty
seed with an explicit exact-count check afterwards, then `m_resources`
weight rows, then capacities taken from a single line with no count
check at all. -/
def readOneInstance (rest : List (List Int)) :
    Except String (ParsedInstance × List (List Int)) :=
  match rest with
  | [] => .error "IndexError"
  | header :: rest1 =>
    match header with
    | [np0, mr0, vopt] =>
      match collectTokens rest1 [] np0 with
      | .error e => .error e
      | .ok gp =>
        if (gp.1.length : Int) ≠ np0 then .error "ValueError"
        else
          match readRows gp.2 mr0.toNat np0 with
          | .error e => .error e
          | .ok rr =>
            match rr.2 with
            | [] => .error "IndexError"
            | caps :: rest2 => .ok (⟨np0, mr0, vopt, gp.1, rr.1, caps⟩, rest2)
    | _ => .error "ValueError"

/-- The `for _ in range(num_instances)` loop of `read_instances`. -/
def readManyInstances (rest : List (List Int)) (k : Nat) :
    Except String (List ParsedInstance × List (List Int)) :=
  match k with
  | 0 => .ok ([], rest)
  | kk + 1 =>
    match readOneInstance rest with
    | .error e => .error e
    | .ok ip =>
      match readManyInstances ip.2 kk with
      | .error e => .error e
      | .ok rr => .ok (ip.1 :: rr.1, rr.2)

/-- `read_instances(file_path)` from algo_de_réparation.py, over the
non-empty lines of the file. -/
def read_instances (lines : List (List Int)) :
    Except String (List ParsedInstance) :=
  match lines with
  | [] => .error "IndexError"
  | l0 :: rest =>
    match l0 with
    | [nInst] =>
      match readManyInstances rest nInst.toNat with
      | .error e => .error e
      | .ok r => .ok r.1
    | _ => .error "ValueError"

/-! ### Basic lemmas about the embedding -/

/-- The cross-multiplication comparison `fracLtB` agrees with the
rational comparison of the denoted values when both denominators are
positive: the embedding of Python's float comparison of quotients is
the real-number comparison. -/
theorem fracLtB_correct (a b : FracVal) (ha : 0 < a.den) (hb : 0 < b.den) :
    fracLtB a b = true ↔ a.val < b.val := by
  have hna : (0 : Rat) < ((a.num.den : Rat) * (a.den : Rat)) := by
    have h1 : (0 : Rat) < (a.num.den : Rat) := by exact_mod_cast a.num.den_pos
    have h2 : (0 : Rat) < (a.den : Rat) := by exact_mod_cast ha
    positivity
  have hnb : (0 : Rat) < ((b.num.den : Rat) * (b.den : Rat)) := by
    have h1 : (0 : Rat) < (b.num.den : Rat) := by exact_mod_cast b.num.den_pos
    have h2 : (0 : Rat) < (b.den : Rat) := by exact_mod_cast hb
    positivity
  have hva : a.val = (a.num.num : Rat) / ((a.num.den : Rat) * (a.den : Rat)) := by
    rw [FracVal.val]
    conv_lhs => rw [← Rat.num_div_den a.num]
    rw [div_div]
  have hvb : b.val = (b.num.num : Rat) / ((b.num.den : Rat) * (b.den : Rat)) := by
    rw [FracVal.val]
    conv_lhs => rw [← Rat.num_div_den b.num]
    rw [div_div]
  rw [fracLtB, decide_eq_true_iff, hva, hvb, div_lt_div_iff₀ hna hnb]
  constructor
  · intro h
    have h2 : ((a.num.num * b.num.den * b.den : Int) : Rat)
        < ((b.num.num * a.num.den * a.den : Int) : Rat) := Int.cast_lt.mpr h
    push_cast at h2
    rw [mul_assoc, mul_assoc] at h2
    exact h2
  · intro h
    rw [← mul_assoc, ← mul_assoc] at h
    have h2 : ((a.num.num * b.num.den * b.den : Int) : Rat)
        < ((b.num.num * a.num.den * a.den : Int) : Rat) := by push_cast; exact h
    exact Int.cast_lt.mp h2

theorem getD_set_false_true {sol : List Bool} {k j : Nat}
    (h : (sol.set k false).getD j false = true) : sol.getD j false = true := by
  induction sol generalizing k j with
  | nil => simp at h
  | cons b bs ih =>
    cases k with
    | zero =>
      cases j with
      | zero => simp at h
      | succ j => simpa using h
    | succ k =>
      cases j with
      | zero => simpa using h
      | succ j => exact ih (by simpa using h)

theorem getD_set_false_false {sol : List Bool} {k j : Nat}
    (h : sol.getD j false = false) : (sol.set k false).getD j false = false := by
  cases hs : (sol.set k false).getD j false with
  | false => rfl
  | true => rw [getD_set_false_true hs] at h; exact h.symm ▸ rfl

theorem getD_set_false_self (sol : List Bool) (k : Nat) :
    (sol.set k false).getD k false = false := by
  induction sol generalizing k with
  | nil => simp
  | cons b bs ih =>
    cases k with
    | zero => simp
    | succ k => simpa using ih k

theorem count_set_false_of_true {sol : List Bool} {k : Nat}
    (h : sol.getD k false = true) :
    countSelected (sol.set k false) + 1 = countSelected sol := by
  induction sol generalizing k with
  | nil => simp at h
  | cons b bs ih =>
    cases k with
    | zero =>
      simp only [List.getD_cons_zero] at h
      subst h
      simp [countSelected, List.count_cons]
    | succ k =>
      have hset : (b :: bs).set (k + 1) false = b :: bs.set k false := rfl
      have hih := ih (k := k) (by simpa using h)
      rw [hset]
      simp only [countSelected, List.count_cons] at *
      omega

theorem count_set_false_le (sol : List Bool) (k : Nat) :
    countSelected (sol.set k false) ≤ countSelected sol := by
  induction sol generalizing k with
  | nil => simp
  | cons b bs ih =>
    cases k with
    | zero =>
      cases b <;> simp [countSelected, List.count_cons]
    | succ k =>
      have hset : (b :: bs).set (k + 1) false = b :: bs.set k false := rfl
      have hih := ih k
      rw [hset]
      simp only [countSelected, List.count_cons] at *
      omega

theorem count_le_count_set_false (sol : List Bool) (k : Nat) :
    countSelected sol ≤ countSelected (sol.set k false) + 1 := by
  induction sol generalizing k with
  | nil => simp
  | cons b bs ih =>
    cases k with
    | zero =>
      cases b <;> simp [countSelected, List.count_cons]
    | succ k =>
      have hset : (b :: bs).set (k + 1) false = b :: bs.set k false := rfl
      have hih := ih k
      rw [hset]
      simp only [countSelected, List.count_cons] at *
      omega

theorem rowCons_allFalse (row : List Int) (sol : List Bool)
    (h : ∀ b ∈ sol, b = false) : rowCons row sol = 0 := by
  induction row generalizing sol with
  | nil => simp [rowCons]
  | cons w ws ih =>
    cases sol with
    | nil => simp [rowCons]
    | cons b bs =>
      have hb : b = false := h b (List.mem_cons_self b bs)
      subst hb
      have := ih bs (fun x hx => h x (List.mem_cons_of_mem _ hx))
      simp only [rowCons, List.zipWith_cons_cons, List.sum_cons] at *
      simpa using this

theorem feasible_of_allFalse (inst : Instance) (sol : List Bool)
    (hcap : ∀ c ∈ inst.capacities, 0 ≤ c)
    (h : ∀ b ∈ sol, b = false) : feasibleB inst sol = true := by
  rw [feasibleB, List.all_eq_true]
  intro x hx
  rw [consumption] at hx
  have : ∀ (ws : List (List Int)) (caps : List Int), (∀ c ∈ caps, 0 ≤ c) →
      ∀ y ∈ List.zipWith (fun c cap => decide (c ≤ cap))
        (ws.map (fun row => rowCons row sol)) caps, y = true := by
    intro ws
    induction ws with
    | nil => intro caps _ y hy; simp at hy
    | cons r rs ih =>
      intro caps hcaps y hy
      cases caps with
      | nil => simp at hy
      | cons c cs =>
        simp only [List.map_cons, List.zipWith_cons_cons, List.mem_cons] at hy
        rcases hy with hy | hy
        · subst hy
          rw [rowCons_allFalse r sol h]
          exact decide_eq_true (hcaps c (List.mem_cons_self c cs))
        · exact ih cs (fun z hz => hcaps z (List.mem_cons_of_mem _ hz)) y hy
  simpa using this inst.weights inst.capacities hcap x hx

theorem exists_true_of_infeasible (inst : Instance) (sol : List Bool)
    (hcap : ∀ c ∈ inst.capacities, 0 ≤ c)
    (h : feasibleB inst sol = false) :
    ∃ j, j < sol.length ∧ sol.getD j false = true := by
  by_contra hno
  push_neg at hno
  have hall : ∀ b ∈ sol, b = false := by
    intro b hb
    obtain ⟨⟨j, hj⟩, hget⟩ := List.mem_iff_get.mp hb
    have hgd : sol.getD j false = b := by
      rw [List.getD_eq_getElem?_getD, List.getElem?_eq_getElem hj]
      simpa using congrArg some hget
    cases hbv : b with
    | false => rfl
    | true =>
      exact absurd (hgd.trans hbv) (hno j hj)
  rw [feasible_of_allFalse inst sol hcap hall] at h
  exact Bool.noConfusion h

/-! ### The recompute-worst-live-ratio repair (Policy A) -/

theorem mem_selectedProjects {sol : List Bool} {j : Nat} :
    j ∈ selectedProjects sol ↔ j < sol.length ∧ sol.getD j false = true := by
  simp [selectedProjects, List.mem_filter, List.mem_range]

theorem argminKey_mem {l : List (Nat × FracVal)} {w : Nat × FracVal}
    (h : argminKey l = some w) : w ∈ l := by
  cases l with
  | nil => exact absurd h (by simp [argminKey])
  | cons x xs =>
    have haux : ∀ (ys : List (Nat × FracVal)) (z : Nat × FracVal),
        (ys.foldl (fun best y => if fracLtB y.2 best.2 then y else best) z)
          ∈ z :: ys := by
      intro ys
      induction ys with
      | nil => intro z; simp
      | cons y ys ih =>
        intro z
        simp only [List.foldl_cons]
        by_cases hc : fracLtB y.2 z.2 = true
        · rw [if_pos hc]
          exact List.mem_cons_of_mem z (ih y)
        · rw [if_neg hc]
          rcases List.mem_cons.mp (ih z) with h1 | h1
          · exact List.mem_cons.mpr (Or.inl h1)
          · exact List.mem_cons_of_mem z (List.mem_cons_of_mem y h1)
    have := haux xs x
    rw [argminKey] at h
    cases h
    exact this

/-- The element returned by `argminKey` has the least value of the list
(when all denominators are positive): Python's `min` over the ratio
list. -/
theorem argminKey_min {l : List (Nat × FracVal)} {w : Nat × FracVal}
    (hden : ∀ y ∈ l, 0 < y.2.den) (h : argminKey l = some w) :
    ∀ y ∈ l, ¬ (y.2.val < w.2.val) := by
  cases l with
  | nil => simp
  | cons x xs =>
    have haux : ∀ (ys : List (Nat × FracVal)) (z : Nat × FracVal),
        0 < z.2.den → (∀ v ∈ ys, 0 < v.2.den) →
        ∀ y ∈ z :: ys,
          ¬ (y.2.val <
            (ys.foldl (fun best y => if fracLtB y.2 best.2 then y else best)
              z).2.val) := by
      intro ys
      induction ys with
      | nil =>
        intro z _ _ y hy
        rcases List.mem_cons.mp hy with h1 | h1
        · rw [h1]; exact lt_irrefl _
        · simp at h1
      | cons u us ih =>
        intro z hdz hdtail y hy
        have hdu : 0 < u.2.den := hdtail u (List.mem_cons_self u us)
        have hdus : ∀ v ∈ us, 0 < v.2.den :=
          fun v hv => hdtail v (List.mem_cons_of_mem u hv)
        simp only [List.foldl_cons]
        by_cases hc : fracLtB u.2 z.2 = true
        · rw [if_pos hc]
          have hrec := ih u hdu hdus
          rcases List.mem_cons.mp hy with h1 | h1
          · rw [h1]
            have huz : u.2.val < z.2.val := (fracLtB_correct u.2 z.2 hdu hdz).mp hc
            have hru := hrec u (List.mem_cons_self u us)
            intro hcon
            exact hru (lt_trans huz hcon)
          · exact hrec y h1
        · rw [if_neg hc]
          have hrec := ih z hdz hdus
          rcases List.mem_cons.mp hy with h1 | h1
          · rw [h1]
            exact hrec z (List.mem_cons_self z us)
          · rcases List.mem_cons.mp h1 with h2 | h2
            · rw [h2]
              have hnuz : ¬ (u.2.val < z.2.val) :=
                fun hcon => hc ((fracLtB_correct u.2 z.2 hdu hdz).mpr hcon)
              have hrz := hrec z (List.mem_cons_self z us)
              intro hcon
              exact hrz (lt_of_le_of_lt (le_of_not_lt hnuz) hcon)
            · exact hrec y (List.mem_cons_of_mem z h2)
    intro y hy
    have hd0 : 0 < x.2.den := hden x (List.mem_cons_self x xs)
    have hdtl : ∀ v ∈ xs, 0 < v.2.den :=
      fun v hv => hden v (List.mem_cons_of_mem x hv)
    have := haux xs x hd0 hdtl y hy
    rw [argminKey] at h
    cases h
    exact this

theorem liveRatio_den_pos (inst : Instance) (j : Nat) :
    0 < (liveRatio inst j).den := by
  rw [liveRatio]
  split <;> simp_all

/-- On a selected project with zero total consumption the live ratio is
the `else 0` branch of the source. -/
theorem liveRatio_zero_of_colSum_zero (inst : Instance) (j : Nat)
    (h : colSum inst j = 0) : liveRatio inst j = ⟨0, 1⟩ := by
  rw [liveRatio, if_neg]
  omega

theorem ratiosList_den_pos (inst : Instance) (sol : List Bool) :
    ∀ y ∈ ratiosList inst sol, 0 < y.2.den := by
  intro y hy
  rw [ratiosList, List.mem_map] at hy
  obtain ⟨j, _, hj⟩ := hy
  rw [← hj]
  exact liveRatio_den_pos inst j

/-- Shape of a successful Policy-A iteration: some selected project is
deselected, everything else is untouched. -/
theorem stepA_spec {inst : Instance} {sol sol2 : List Bool}
    (h : stepA inst sol = some sol2) :
    ∃ k, k < sol.length ∧ sol.getD k false = true ∧ sol2 = sol.set k false := by
  rw [stepA] at h
  cases hm : argminKey (ratiosList inst sol) with
  | none => rw [hm] at h; exact Option.noConfusion h
  | some w =>
    rw [hm] at h
    have hw := argminKey_mem hm
    rw [ratiosList, List.mem_map] at hw
    obtain ⟨j, hjmem, hj⟩ := hw
    have hjsel := mem_selectedProjects.mp hjmem
    refine ⟨w.1, ?_, ?_, ?_⟩
    · rw [← hj]; exact hjsel.1
    · rw [← hj]; exact hjsel.2
    · cases h; rfl

theorem stepA_isSome {inst : Instance} {sol : List Bool}
    (hcap : ∀ c ∈ inst.capacities, 0 ≤ c)
    (h : feasibleB inst sol = false) :
    ∃ sol2, stepA inst sol = some sol2 := by
  obtain ⟨j, hj, hsel⟩ := exists_true_of_infeasible inst sol hcap h
  have hmem : j ∈ selectedProjects sol := mem_selectedProjects.mpr ⟨hj, hsel⟩
  have hne : ratiosList inst sol ≠ [] := by
    rw [ratiosList]
    intro hnil
    rw [List.map_eq_nil_iff] at hnil
    rw [hnil] at hmem
    simp at hmem
  rw [stepA]
  cases hm : argminKey (ratiosList inst sol) with
  | none =>
    exfalso
    cases hl : ratiosList inst sol with
    | nil => exact hne hl
    | cons x xs => rw [hl, argminKey] at hm; exact Option.noConfusion hm
  | some w => exact ⟨sol.set w.1 false, rfl⟩

/-- Policy A terminates with a feasible selection given enough fuel:
each iteration deselects one selected project, so the number of
selected projects bounds the number of iterations. -/
theorem loopA_ok (inst : Instance) (hcap : ∀ c ∈ inst.capacities, 0 ≤ c) :
    ∀ (fuel : Nat) (sol : List Bool), countSelected sol < fuel →
      ∃ r, loopA inst fuel sol = some r ∧ feasibleB inst r = true := by
  intro fuel
  induction fuel with
  | zero => intro sol h; omega
  | succ f ih =>
    intro sol hcount
    cases hfeas : feasibleB inst sol with
    | true => exact ⟨sol, by rw [loopA, hfeas]; simp, hfeas⟩
    | false =>
      obtain ⟨sol2, hstep⟩ := stepA_isSome hcap hfeas
      obtain ⟨k, _, hsel, hset⟩ := stepA_spec hstep
      have hdec : countSelected sol2 + 1 = countSelected sol := by
        rw [hset]; exact count_set_false_of_true hsel
      obtain ⟨r, hr, hfr⟩ := ih sol2 (by omega)
      exact ⟨r, by rw [loopA, hfeas]; simpa [hstep] using hr, hfr⟩

theorem selLe_refl (sol : List Bool) : selLe sol sol := fun _ h => h

theorem selLe_set_false (sol : List Bool) (k : Nat) :
    selLe (sol.set k false) sol := fun _ h => getD_set_false_true h

/-- Whatever Policy A returns is pointwise below its input: the loop
only ever writes 0 into the selection. -/
theorem loopA_le (inst : Instance) :
    ∀ (fuel : Nat) (sol r : List Bool),
      loopA inst fuel sol = some r → selLe r sol := by
  intro fuel
  induction fuel with
  | zero => intro sol r h; exact absurd h (by rw [loopA]; simp)
  | succ f ih =>
    intro sol r h
    rw [loopA] at h
    cases hfeas : feasibleB inst sol with
    | true =>
      rw [hfeas] at h
      simp at h
      rw [h]
      exact selLe_refl r
    | false =>
      rw [hfeas] at h
      simp only [Bool.false_eq_true, if_false] at h
      cases hstep : stepA inst sol with
      | none => rw [hstep] at h; exact Option.noConfusion h
      | some sol2 =>
        rw [hstep] at h
        obtain ⟨k, _, _, hset⟩ := stepA_spec hstep
        intro j hj
        have := ih sol2 r h j hj
        rw [hset] at this
        exact getD_set_false_true this

/-! ### The fixed reverse-order-scan repair (Policy B) -/

theorem negGet_of_le {l : List Nat} {k : Nat} (h1 : 1 ≤ k) (h2 : k ≤ l.length) :
    negGet l k = some (l.get ⟨l.length - k, by omega⟩) := by
  rw [negGet, if_pos ⟨h1, h2⟩]
  exact List.get?_eq_get (by omega)

theorem negGet_mem {l : List Nat} {k b : Nat} (h : negGet l k = some b) :
    b ∈ l := by
  rw [negGet] at h
  split at h
  · exact List.get?_mem h
  · exact Option.noConfusion h

/-- Unfolding of the Policy-B iteration in the regular case: the project
at scan position `idx` is still selected and gets deselected. -/
theorem stepB_eq_remove {sortedIdx : List Nat} {sol : List Bool} {idx bad : Nat}
    (hg : negGet sortedIdx idx = some bad)
    (hb : sol.getD bad false = true) :
    stepB sortedIdx sol idx = some (sol.set bad false, idx + 1) := by
  rw [stepB, hg]
  show (if sol.getD bad false = false then
      match negGet sortedIdx (idx + 1) with
      | none => none
      | some bad2 => some (sol.set bad2 false, idx + 2)
    else some (sol.set bad false, idx + 1)) = some (sol.set bad false, idx + 1)
  rw [if_neg (by rw [hb]; simp)]

/-- Unfolding of the Policy-B iteration in the skip case: the project at
scan position `idx` is already deselected, so the entry at position
`idx + 1` is written to 0 instead — selected or not. -/
theorem stepB_eq_skip {sortedIdx : List Nat} {sol : List Bool} {idx bad bad2 : Nat}
    (hg : negGet sortedIdx idx = some bad)
    (hb : sol.getD bad false = false)
    (hg2 : negGet sortedIdx (idx + 1) = some bad2) :
    stepB sortedIdx sol idx = some (sol.set bad2 false, idx + 2) := by
  rw [stepB, hg]
  show (if sol.getD bad false = false then
      match negGet sortedIdx (idx + 1) with
      | none => none
      | some bad2 => some (sol.set bad2 false, idx + 2)
    else some (sol.set bad false, idx + 1)) = some (sol.set bad2 false, idx + 2)
  rw [if_pos hb, hg2]

/-- Shape of a successful Policy-B iteration: one entry is written to 0
(possibly one that was already 0) and the scan cursor advances. -/
theorem stepB_spec {sortedIdx : List Nat} {sol sol2 : List Bool} {idx idx2 : Nat}
    (h : stepB sortedIdx sol idx = some (sol2, idx2)) :
    ∃ k, k ∈ sortedIdx ∧ sol2 = sol.set k false ∧ idx < idx2 := by
  rw [stepB] at h
  split at h
  · exact Option.noConfusion h
  · rename_i bad heq
    split at h
    · split at h
      · exact Option.noConfusion h
      · rename_i bad2 heq2
        injection h with h1
        rw [Prod.mk.injEq] at h1
        exact ⟨bad2, negGet_mem heq2, h1.1.symm, by omega⟩
    · injection h with h1
      rw [Prod.mk.injEq] at h1
      exact ⟨bad, negGet_mem heq, h1.1.symm, by omega⟩

/-- Whatever Policy B returns is pointwise below its input. -/
theorem loopB_le (inst : Instance) (sortedIdx : List Nat) :
    ∀ (fuel : Nat) (sol r : List Bool) (idx : Nat),
      loopB inst sortedIdx fuel sol idx = some r → selLe r sol := by
  intro fuel
  induction fuel with
  | zero => intro sol r idx h; exact absurd h (by rw [loopB]; simp)
  | succ f ih =>
    intro sol r idx h
    rw [loopB] at h
    cases hfeas : feasibleB inst sol with
    | true =>
      rw [hfeas] at h
      simp at h
      rw [h]
      exact selLe_refl r
    | false =>
      rw [hfeas] at h
      simp only [Bool.false_eq_true, if_false] at h
      cases hstep : stepB sortedIdx sol idx with
      | none => rw [hstep] at h; exact Option.noConfusion h
      | some p =>
        rw [hstep] at h
        obtain ⟨k, _, hset, _⟩ := stepB_spec hstep
        intro j hj
        have := ih p.1 r p.2 h j hj
        rw [hset] at this
        exact getD_set_false_true this

/-- Policy B terminates with a feasible selection: the scan cursor
`idx` strictly increases, every position strictly before it holds an
already-deselected project, and once the scan has covered the whole
rank order the selection is empty, hence feasible. -/
theorem loopB_ok (inst : Instance) (sortedIdx : List Nat)
    (hcap : ∀ c ∈ inst.capacities, 0 ≤ c) :
    ∀ (fuel : Nat) (sol : List Bool) (idx : Nat),
      sortedIdx.Perm (List.range sol.length) →
      (∀ k j, 1 ≤ k → k < idx → negGet sortedIdx k = some j →
        sol.getD j false = false) →
      1 ≤ idx → idx ≤ sortedIdx.length + 1 →
      sortedIdx.length + 2 ≤ fuel + idx →
      ∃ r, loopB inst sortedIdx fuel sol idx = some r ∧
        feasibleB inst r = true := by
  intro fuel
  induction fuel with
  | zero => intro sol idx _ _ _ h1 h2; omega
  | succ f ih =>
    intro sol idx hperm hinv hidx1 hidxle hfuel
    cases hfeas : feasibleB inst sol with
    | true => exact ⟨sol, by rw [loopB, hfeas]; simp, hfeas⟩
    | false =>
      obtain ⟨j, hjlen, hjtrue⟩ := exists_true_of_infeasible inst sol hcap hfeas
      -- the true entry j occupies some position k ≥ idx of the scan
      have hjmem : j ∈ sortedIdx :=
        hperm.mem_iff.mpr (List.mem_range.mpr hjlen)
      obtain ⟨⟨pos, hpos⟩, hget⟩ := List.mem_iff_get.mp hjmem
      have hkle : sortedIdx.length - pos ≤ sortedIdx.length := by omega
      have hk1 : 1 ≤ sortedIdx.length - pos := by omega
      have hkget : negGet sortedIdx (sortedIdx.length - pos) = some j := by
        rw [negGet_of_le hk1 hkle, Option.some_inj]
        have hfin : (⟨sortedIdx.length - (sortedIdx.length - pos), by omega⟩ :
            Fin sortedIdx.length) = ⟨pos, hpos⟩ := by
          apply Fin.ext
          show sortedIdx.length - (sortedIdx.length - pos) = pos
          omega
        rw [hfin, hget]
      have hkidx : idx ≤ sortedIdx.length - pos := by
        by_contra hlt
        have := hinv (sortedIdx.length - pos) j hk1 (by omega) hkget
        rw [hjtrue] at this
        exact Bool.noConfusion this
      have hidxlen : idx ≤ sortedIdx.length := by omega
      have hbadget := negGet_of_le hidx1 hidxlen
      set bad := sortedIdx.get ⟨sortedIdx.length - idx, by omega⟩ with hbaddef
      have hbadmem : bad ∈ sortedIdx := List.get_mem _ _ _
      have hbadlen : bad < sol.length :=
        List.mem_range.mp (hperm.mem_iff.mp hbadmem)
      cases hb : sol.getD bad false with
      | true =>
        -- regular removal: deselect `bad`, advance the cursor once
        have hstep : stepB sortedIdx sol idx = some (sol.set bad false, idx + 1) :=
          stepB_eq_remove hbadget hb
        have hinv2 : ∀ k2 j2, 1 ≤ k2 → k2 < idx + 1 →
            negGet sortedIdx k2 = some j2 →
            (sol.set bad false).getD j2 false = false := by
          intro k2 j2 hk21 hk2lt hk2get
          by_cases hk2idx : k2 = idx
          · have : j2 = bad := by
              rw [hk2idx, hbadget] at hk2get
              exact (Option.some_inj.mp hk2get).symm
            rw [this]
            exact getD_set_false_self sol bad
          · exact getD_set_false_false (hinv k2 j2 hk21 (by omega) hk2get)
        obtain ⟨r, hr, hfr⟩ := ih (sol.set bad false) (idx + 1)
          (by rw [List.length_set]; exact hperm) hinv2 (by omega)
          (by omega) (by omega)
        exact ⟨r, by rw [loopB, hfeas]; simpa [hstep] using hr, hfr⟩
      | false =>
        -- skip branch: position idx is already deselected, so the true
        -- entry sits strictly deeper and the next position exists
        have hkne : sortedIdx.length - pos ≠ idx := by
          intro he
          rw [he, hbadget] at hkget
          have : bad = j := Option.some_inj.mp hkget
          rw [this] at hb
          rw [hjtrue] at hb
          exact Bool.noConfusion hb
        have hidx1len : idx + 1 ≤ sortedIdx.length := by omega
        have hbad2get := negGet_of_le (k := idx + 1) (by omega) hidx1len
        set bad2 := sortedIdx.get ⟨sortedIdx.length - (idx + 1), by omega⟩
          with hbad2def
        have hstep : stepB sortedIdx sol idx
            = some (sol.set bad2 false, idx + 2) :=
          stepB_eq_skip hbadget hb hbad2get
        have hinv2 : ∀ k2 j2, 1 ≤ k2 → k2 < idx + 2 →
            negGet sortedIdx k2 = some j2 →
            (sol.set bad2 false).getD j2 false = false := by
          intro k2 j2 hk21 hk2lt hk2get
          by_cases hk2idx1 : k2 = idx + 1
          · have : j2 = bad2 := by
              rw [hk2idx1, hbad2get] at hk2get
              exact (Option.some_inj.mp hk2get).symm
            rw [this]
            exact getD_set_false_self sol bad2
          · by_cases hk2idx : k2 = idx
            · have : j2 = bad := by
                rw [hk2idx, hbadget] at hk2get
                exact (Option.some_inj.mp hk2get).symm
              rw [this]
              exact getD_set_false_false hb
            · exact getD_set_false_false (hinv k2 j2 hk21 (by omega) hk2get)
        obtain ⟨r, hr, hfr⟩ := ih (sol.set bad2 false) (idx + 2)
          (by rw [List.length_set]; exact hperm) hinv2 (by omega)
          (by omega) (by omega)
        exact ⟨r, by rw [loopB, hfeas]; simpa [hstep] using hr, hfr⟩

/-! ### Monotone consumption -/

theorem rowCons_set_false_le (row : List Int) (sol : List Bool) (k : Nat)
    (hrow : ∀ w ∈ row, 0 ≤ w) :
    rowCons row (sol.set k false) ≤ rowCons row sol := by
  induction row generalizing sol k with
  | nil => simp [rowCons]
  | cons w ws ih =>
    cases sol with
    | nil => simp
    | cons b bs =>
      have hw : 0 ≤ w := hrow w (List.mem_cons_self w ws)
      have hws : ∀ v ∈ ws, 0 ≤ v := fun v hv => hrow v (List.mem_cons_of_mem w hv)
      cases k with
      | zero =>
        show rowCons (w :: ws) (false :: bs) ≤ rowCons (w :: ws) (b :: bs)
        simp only [rowCons, List.zipWith_cons_cons, List.sum_cons]
        have : (if false then w else 0) ≤ (if b then w else 0) := by
          cases b <;> simp [hw]
        omega
      | succ k =>
        have hset : (b :: bs).set (k + 1) false = b :: bs.set k false := rfl
        rw [hset]
        simp only [rowCons, List.zipWith_cons_cons, List.sum_cons]
        have := ih bs k hws
        simp only [rowCons] at this
        omega

/-- Writing a 0 into the selection can only shrink each component of
the consumption vector (non-negative weights). -/
theorem consumption_set_false_le (inst : Instance) (sol : List Bool) (k : Nat)
    (hw : ∀ row ∈ inst.weights, ∀ w ∈ row, 0 ≤ w) :
    ∀ i, (consumption inst (sol.set k false)).getD i 0
        ≤ (consumption inst sol).getD i 0 := by
  rw [consumption, consumption]
  have haux : ∀ (ws : List (List Int)), (∀ row ∈ ws, ∀ w ∈ row, 0 ≤ w) →
      ∀ i, ((ws.map (fun row => rowCons row (sol.set k false))).getD i 0 : Int)
        ≤ (ws.map (fun row => rowCons row sol)).getD i 0 := by
    intro ws
    induction ws with
    | nil => intro _ i; simp
    | cons r rs ih =>
      intro hws i
      cases i with
      | zero =>
        simpa using rowCons_set_false_le r sol k (hws r (List.mem_cons_self r rs))
      | succ i =>
        simpa using ih (fun row hr => hws row (List.mem_cons_of_mem r hr)) i
  exact haux inst.weights hw

/-! ### Parser count invariants -/

theorem collectTokens_ok :
    ∀ (rest : List (List Int)) (acc : List Int) (target : Int)
      (res : List Int × List (List Int)),
      collectTokens rest acc target = .ok res → target ≤ (res.1.length : Int) := by
  intro rest
  induction rest with
  | nil =>
    intro acc target res h
    rw [collectTokens] at h
    split at h
    · exact Except.noConfusion h
    · injection h with h1
      rw [← h1]
      show target ≤ (acc.length : Int)
      omega
  | cons line rest2 ih =>
    intro acc target res h
    rw [collectTokens] at h
    split at h
    · exact ih (acc ++ line) target res h
    · injection h with h1
      rw [← h1]
      show target ≤ (acc.length : Int)
      omega

theorem parseRows_ok :
    ∀ (k : Nat) (rest : List (List Int)) (target : Int)
      (res : List (List Int) × List (List Int)),
      parseRows rest k target = .ok res →
      res.1.length = k ∧ ∀ row ∈ res.1, target ≤ (row.length : Int) := by
  intro k
  induction k with
  | zero =>
    intro rest target res h
    simp only [parseRows] at h
    injection h with h1
    rw [← h1]
    simp
  | succ kk ih =>
    intro rest target res h
    simp only [parseRows] at h
    split at h
    · exact Except.noConfusion h
    · rename_i row0 rest1
      split at h
      · exact Except.noConfusion h
      · rename_i rp hrp
        split at h
        · exact Except.noConfusion h
        · rename_i rr hrr
          injection h with h1
          rw [← h1]
          obtain ⟨hlen, hall⟩ := ih rp.2 target rr hrr
          refine ⟨by simpa using hlen, ?_⟩
          intro row hrow
          rcases List.mem_cons.mp hrow with h2 | h2
          · rw [h2]; exact collectTokens_ok rest1 row0 target rp hrp
          · exact hall row h2

theorem readRows_ok :
    ∀ (k : Nat) (rest : List (List Int)) (target : Int)
      (res : List (List Int) × List (List Int)),
      readRows rest k target = .ok res →
      res.1.length = k ∧ ∀ row ∈ res.1, target ≤ (row.length : Int) := by
  intro k
  induction k with
  | zero =>
    intro rest target res h
    simp only [readRows] at h
    injection h with h1
    rw [← h1]
    simp
  | succ kk ih =>
    intro rest target res h
    simp only [readRows] at h
    split at h
    · exact Except.noConfusion h
    · rename_i rp hrp
      split at h
      · exact Except.noConfusion h
      · rename_i rr hrr
        injection h with h1
        rw [← h1]
        obtain ⟨hlen, hall⟩ := ih rp.2 target rr hrr
        refine ⟨by simpa using hlen, ?_⟩
        intro row hrow
        rcases List.mem_cons.mp hrow with h2 | h2
        · rw [h2]; exact collectTokens_ok rest [] target rp hrp
        · exact hall row h2

theorem parseOneInstance_ok {rest : List (List Int)}
    {res : ParsedInstance × List (List Int)}
    (h : parseOneInstance rest = .ok res) : parseChecked res.1 := by
  simp only [parseOneInstance] at h
  split at h
  · exact Except.noConfusion h
  · split at h
    · rename_i np0 mr0 vopt
      split at h
      · exact Except.noConfusion h
      · rename_i profits0 rest2
        split at h
        · exact Except.noConfusion h
        · rename_i pp hpp
          split at h
          · exact Except.noConfusion h
          · rename_i rr hrr
            split at h
            · exact Except.noConfusion h
            · rename_i caps0 rest3 heq3
              split at h
              · exact Except.noConfusion h
              · rename_i cc hcc
                injection h with h1
                rw [← h1]
                obtain ⟨hrlen, hrall⟩ := parseRows_ok mr0.toNat pp.2 np0 rr hrr
                exact ⟨collectTokens_ok rest2 profits0 np0 pp hpp,
                  hrlen, hrall, collectTokens_ok rest3 caps0 mr0 cc hcc⟩
    · exact Except.noConfusion h

theorem readOneInstance_ok {rest : List (List Int)}
    {res : ParsedInstance × List (List Int)}
    (h : readOneInstance rest = .ok res) : readChecked res.1 := by
  simp only [readOneInstance] at h
  split at h
  · exact Except.noConfusion h
  · split at h
    · rename_i np0 mr0 vopt
      split at h
      · exact Except.noConfusion h
      · rename_i gp hgp
        split at h
        · exact Except.noConfusion h
        · rename_i hne
          split at h
          · exact Except.noConfusion h
          · rename_i rr hrr
            split at h
            · exact Except.noConfusion h
            · rename_i caps rest2 heq2
              injection h with h1
              rw [← h1]
              obtain ⟨hrlen, hrall⟩ := readRows_ok mr0.toNat gp.2 np0 rr hrr
              exact ⟨by show (gp.1.length : Int) = np0; omega, hrlen, hrall⟩
    · exact Except.noConfusion h

theorem parseManyInstances_ok :
    ∀ (k : Nat) (rest : List (List Int))
      (res : List ParsedInstance × List (List Int)),
      parseManyInstances rest k = .ok res →
      ∀ inst ∈ res.1, parseChecked inst := by
  intro k
  induction k with
  | zero =>
    intro rest res h
    simp only [parseManyInstances] at h
    injection h with h1
    rw [← h1]
    simp
  | succ kk ih =>
    intro rest res h
    simp only [parseManyInstances] at h
    split at h
    · exact Except.noConfusion h
    · rename_i ip hip
      split at h
      · exact Except.noConfusion h
      · rename_i rr hrr
        injection h with h1
        rw [← h1]
        intro inst hinst
        rcases List.mem_cons.mp hinst with h2 | h2
        · rw [h2]; exact parseOneInstance_ok hip
        · exact ih ip.2 rr hrr inst h2

theorem readManyInstances_ok :
    ∀ (k : Nat) (rest : List (List Int))
      (res : List ParsedInstance × List (List Int)),
      readManyInstances rest k = .ok res →
      ∀ inst ∈ res.1, readChecked inst := by
  intro k
  induction k with
  | zero =>
    intro rest res h
    simp only [readManyInstances] at h
    injection h with h1
    rw [← h1]
    simp
  | succ kk ih =>
    intro rest res h
    simp only [readManyInstances] at h
    split at h
    · exact Except.noConfusion h
    · rename_i ip hip
      split at h
      · exact Except.noConfusion h
      · rename_i rr hrr
        injection h with h1
        rw [← h1]
        intro inst hinst
        rcases List.mem_cons.mp hinst with h2 | h2
        · rw [h2]; exact readOneInstance_ok hip
        · exact ih ip.2 rr hrr inst h2

theorem parse_instance_ok {lines : List (List Int)} {res : List ParsedInstance}
    (h : parse_instance lines = .ok res) : ∀ inst ∈ res, parseChecked inst := by
  simp only [parse_instance] at h
  split at h
  · exact Except.noConfusion h
  · split at h
    · rename_i nInst
      split at h
      · exact Except.noConfusion h
      · rename_i r hr
        injection h with h1
        rw [← h1]
        exact parseManyInstances_ok nInst.toNat _ r hr
    · exact Except.noConfusion h

theorem read_instances_ok {lines : List (List Int)} {res : List ParsedInstance}
    (h : read_instances lines = .ok res) : ∀ inst ∈ res, readChecked inst := by
  simp only [read_instances] at h
  split at h
  · exact Except.noConfusion h
  · split at h
    · rename_i nInst
      split at h
      · exact Except.noConfusion h
      · rename_i r hr
        injection h with h1
        rw [← h1]
        exact readManyInstances_ok nInst.toNat _ r hr
    · exact Except.noConfusion h

/-! ### Remaining small helpers -/

theorem countSelected_le_length (sol : List Bool) :
    countSelected sol ≤ sol.length := by
  rw [countSelected]
  exact List.count_le_length true sol

theorem getD_nonneg_of_forall {l : List Rat} (h : ∀ g ∈ l, 0 ≤ g) (j : Nat) :
    0 ≤ l.getD j 0 := by
  induction l generalizing j with
  | nil => simp
  | cons g gs ih =>
    cases j with
    | zero => simpa using h g (List.mem_cons_self g gs)
    | succ j =>
      simpa using ih (fun x hx => h x (List.mem_cons_of_mem g hx)) j

theorem liveRatio_val_nonneg (inst : Instance) (j : Nat)
    (hg : ∀ g ∈ inst.gains, 0 ≤ g) : 0 ≤ (liveRatio inst j).val := by
  rw [liveRatio]
  split
  · rename_i hpos
    rw [FracVal.val]
    apply div_nonneg (getD_nonneg_of_forall hg j)
    exact_mod_cast le_of_lt hpos
  · simp [FracVal.val]

/-! ### Claims -/

/-- Claim C1: for every instance with non-negative capacities, both
repair implementations return a selection satisfying every resource
constraint (`Σ_j weights[i][j]·solution[j] ≤ capacities[i]` for all i).
Policy B additionally needs its rank order to be, as produced by the
constructor, a permutation of the project indices. -/
theorem claim_C1 (inst : Instance) (sol : List Bool) (sortedIdx : List Nat)
    (hcap : ∀ c ∈ inst.capacities, 0 ≤ c)
    (hperm : sortedIdx.Perm (List.range sol.length)) :
    (∃ r, repair_solution inst sol = some r ∧ feasibleB inst r = true) ∧
    (∃ r, repair_heuristic inst sol sortedIdx = some r ∧
      feasibleB inst r = true) := by
  constructor
  · rw [repair_solution]
    exact loopA_ok inst hcap (sol.length + 1) sol
      (by have := countSelected_le_length sol; omega)
  · rw [repair_heuristic]
    have hlen : sortedIdx.length = sol.length := by
      rw [hperm.length_eq, List.length_range]
    exact loopB_ok inst sortedIdx hcap (sol.length + 1) sol 1 hperm
      (fun k j h1 h2 _ => absurd h2 (by omega))
      (by omega) (by omega) (by omega)

/-- Witness for C1 at spec scenario 2 (all three projects selected,
rank order `[1,0,2]`). -/
theorem claim_C1_witness :
    (∀ c ∈ scnInstance2.capacities, 0 ≤ c) ∧
    ([1, 0, 2] : List Nat).Perm (List.range 3) ∧
    ((∃ r, repair_solution scnInstance2 [true, true, true] = some r ∧
        feasibleB scnInstance2 r = true) ∧
     (∃ r, repair_heuristic scnInstance2 [true, true, true] [1, 0, 2] = some r ∧
        feasibleB scnInstance2 r = true)) :=
  ⟨by decide, by decide,
    claim_C1 scnInstance2 [true, true, true] [1, 0, 2] (by decide) (by decide)⟩

/-- Claim C4: repair is the identity on a selection that already
satisfies all resource constraints — the loop guard fails immediately
in both implementations. -/
theorem claim_C4 (inst : Instance) (sol : List Bool) (sortedIdx : List Nat)
    (hfeas : feasibleB inst sol = true) :
    repair_solution inst sol = some sol ∧
    repair_heuristic inst sol sortedIdx = some sol := by
  constructor
  · rw [repair_solution, loopA, hfeas]
    simp
  · rw [repair_heuristic, loopB, hfeas]
    simp

/-- Witness for C4 at spec scenario 1: the greedy selection `[1,1,0]`
is feasible and both repairs return it unchanged. -/
theorem claim_C4_witness :
    feasibleB scnInstance1 [true, true, false] = true ∧
    (repair_solution scnInstance1 [true, true, false]
        = some [true, true, false] ∧
     repair_heuristic scnInstance1 [true, true, false] [1, 0, 2]
        = some [true, true, false]) :=
  ⟨by decide, claim_C4 scnInstance1 [true, true, false] [1, 0, 2] (by decide)⟩

/-- Claim C10: repair is removal-only — whatever either implementation
returns is pointwise at most the initial selection; an entry is only
ever changed from 1 to 0. -/
theorem claim_C10 (inst : Instance) (sol : List Bool) (sortedIdx : List Nat) :
    (∀ r, repair_solution inst sol = some r → selLe r sol) ∧
    (∀ r, repair_heuristic inst sol sortedIdx = some r → selLe r sol) := by
  constructor
  · intro r h
    rw [repair_solution] at h
    exact loopA_le inst (sol.length + 1) sol r h
  · intro r h
    rw [repair_heuristic] at h
    exact loopB_le inst sortedIdx (sol.length + 1) sol r 1 h

/-- Witness for C10 at spec scenario 2: the repaired selection
`[0,1,0]` is pointwise below the initial `[1,1,1]`. -/
theorem claim_C10_witness :
    repair_solution scnInstance2 [true, true, true] = some [false, true, false] ∧
    selLe [false, true, false] [true, true, true] :=
  ⟨by decide,
    (claim_C10 scnInstance2 [true, true, true] [1, 0, 2]).1
      [false, true, false] (by decide)⟩

/-- Claim C9: on spec scenario 1 the surrogate relaxation gives weights
`[2,3,4]` and capacity 5, the rank order is `[1,0,2]`, the greedy fill
selects projects 1 and 0 and skips 2, and the resulting selection
`[1,1,0]` is feasible with objective value 30 and passes through repair
unchanged. -/
theorem claim_C9 :
    surrogate_relaxation scnInstance1 = ([2, 3, 4], 5) ∧
    glouton_heuristic scnInstance1.gains (surrogate_relaxation scnInstance1).1
      (surrogate_relaxation scnInstance1).2
      = ([true, true, false], [1, 0, 2]) ∧
    feasibleB scnInstance1 [true, true, false] = true ∧
    majorant scnInstance1 [true, true, false] = 30 ∧
    repair_heuristic scnInstance1 [true, true, false] [1, 0, 2]
      = some [true, true, false] := by
  refine ⟨by decide, by decide, by decide, ?_, by decide⟩
  show majorant scnInstance1 [true, true, false] = 30
  simp [majorant, scnInstance1]
  norm_num

/-- Counterexample to claim C2: on an instance with non-negative
weights and capacities whose actual rank order is `[0,1,2]`, with the
binary selection `[1,0,0]` the loop of `repair_heuristic` is entered
(the selection is infeasible), yet its first iteration deselects no
previously-selected project: both scan positions it inspects hold
already-deselected projects, the source skips only once, and the
iteration rewrites an entry that is already 0 — the solution is
returned unchanged with the cursor advanced by two. -/
theorem claim_C2_counterexample :
    (glouton_heuristic skipInstance.gains
      (surrogate_relaxation skipInstance).1
      (surrogate_relaxation skipInstance).2).2 = [0, 1, 2] ∧
    feasibleB skipInstance [true, false, false] = false ∧
    stepB [0, 1, 2] [true, false, false] 1
      = some ([true, false, false], 3) := by decide

/-- Claim C2 (amended): with non-negative weights and capacities and a
rank order that is a permutation of the project indices, both repair
implementations terminate within `n_projects` removal steps (the fuel
`n_projects + 1` of the embedding is never exhausted); each iteration
of `repair_solution` deselects exactly one previously-selected project,
while an iteration of `repair_heuristic` deselects AT MOST one — it can
deselect none when consecutive scan positions hold already-deselected
projects. -/
theorem claim_C2 (inst : Instance) (sol : List Bool) (sortedIdx : List Nat)
    (_hw : ∀ row ∈ inst.weights, ∀ w ∈ row, 0 ≤ w)
    (hcap : ∀ c ∈ inst.capacities, 0 ≤ c)
    (hperm : sortedIdx.Perm (List.range sol.length)) :
    (∀ s s2 : List Bool, stepA inst s = some s2 →
      countSelected s2 + 1 = countSelected s) ∧
    (∀ (si : List Nat) (s s2 : List Bool) (i i2 : Nat),
      stepB si s i = some (s2, i2) →
      countSelected s2 ≤ countSelected s ∧
      countSelected s ≤ countSelected s2 + 1) ∧
    (∃ r, repair_solution inst sol = some r) ∧
    (∃ r, repair_heuristic inst sol sortedIdx = some r) := by
  refine ⟨?_, ?_, ?_, ?_⟩
  · intro s s2 h
    obtain ⟨k, _, hsel, hset⟩ := stepA_spec h
    rw [hset]
    exact count_set_false_of_true hsel
  · intro si s s2 i i2 h
    obtain ⟨k, _, hset, _⟩ := stepB_spec h
    rw [hset]
    exact ⟨count_set_false_le s k, count_le_count_set_false s k⟩
  · rw [repair_solution]
    obtain ⟨r, hr, _⟩ := loopA_ok inst hcap (sol.length + 1) sol
      (by have := countSelected_le_length sol; omega)
    exact ⟨r, hr⟩
  · rw [repair_heuristic]
    have hlen : sortedIdx.length = sol.length := by
      rw [hperm.length_eq, List.length_range]
    obtain ⟨r, hr, _⟩ := loopB_ok inst sortedIdx hcap (sol.length + 1) sol 1
      hperm (fun k j h1 h2 _ => absurd h2 (by omega))
      (by omega) (by omega) (by omega)
    exact ⟨r, hr⟩

/-- Witness for the amended C2 at `skipInstance` with all projects
initially selected. -/
theorem claim_C2_witness :
    (∀ row ∈ skipInstance.weights, ∀ w ∈ row, 0 ≤ w) ∧
    (∀ c ∈ skipInstance.capacities, 0 ≤ c) ∧
    ([0, 1, 2] : List Nat).Perm (List.range 3) ∧
    ((∀ s s2 : List Bool, stepA skipInstance s = some s2 →
        countSelected s2 + 1 = countSelected s) ∧
     (∀ (si : List Nat) (s s2 : List Bool) (i i2 : Nat),
        stepB si s i = some (s2, i2) →
        countSelected s2 ≤ countSelected s ∧
        countSelected s ≤ countSelected s2 + 1) ∧
     (∃ r, repair_solution skipInstance [true, true, true] = some r) ∧
     (∃ r, repair_heuristic skipInstance [true, true, true] [0, 1, 2]
        = some r)) :=
  ⟨by decide, by decide, by decide,
    claim_C2 skipInstance [true, true, true] [0, 1, 2]
      (by decide) (by decide) (by decide)⟩

/-- Counterexample to claim C3: in `tieInstance` both projects are
selected, project 1 has zero total consumption (live ratio forced to
0), yet the first removal picks project 0, whose total consumption is
5 > 0 — its profit is 0, so its genuine ratio 0/5 ties with the forced
0 and Python's `min` keeps the earlier index.  A zero-footprint project
is therefore NOT always removed before every resource-consuming
project. -/
theorem claim_C3_counterexample :
    colSum tieInstance 1 = 0 ∧
    ([true, true] : List Bool).getD 1 false = true ∧
    colSum tieInstance 0 = 5 ∧
    stepA tieInstance [true, true] = some [false, true] := by decide

/-- Claim C3 (amended): a selected project with zero total consumption
is assigned live ratio 0; with non-negative profits 0 is the least
possible value, so the project chosen for removal also has live ratio
0 — it is either a zero-footprint project or a zero-profit one (the
choice among ties falls on the lowest index, not necessarily on the
zero-footprint project).  On the concrete instance of spec scenario 3
the claimed trace does hold: repair removes project 0 first, then
project 1, returning `[0,0]` with objective value 0. -/
theorem claim_C3 (inst : Instance) (sol : List Bool) (j : Nat)
    (hg : ∀ g ∈ inst.gains, 0 ≤ g)
    (hj : j < sol.length) (hsel : sol.getD j false = true)
    (hzero : colSum inst j = 0) :
    liveRatio inst j = ⟨0, 1⟩ ∧
    (∀ w, argminKey (ratiosList inst sol) = some w → w.2.num = 0) ∧
    stepA scnInstance3 [true, true] = some [false, true] ∧
    stepA scnInstance3 [false, true] = some [false, false] ∧
    repair_solution scnInstance3 [true, true] = some [false, false] ∧
    majorant scnInstance3 [false, false] = 0 := by
  refine ⟨liveRatio_zero_of_colSum_zero inst j hzero, ?_, by decide, by decide,
    by decide, by simp [majorant, scnInstance3]⟩
  intro w hw
  have hwmem := argminKey_mem hw
  have hmin := argminKey_min (ratiosList_den_pos inst sol) hw
  -- the zero-footprint project contributes the pair (j, ⟨0,1⟩)
  have hjpair : (j, liveRatio inst j) ∈ ratiosList inst sol := by
    rw [ratiosList, List.mem_map]
    exact ⟨j, mem_selectedProjects.mpr ⟨hj, hsel⟩, rfl⟩
  have hjval : (liveRatio inst j).val = 0 := by
    rw [liveRatio_zero_of_colSum_zero inst j hzero]
    simp [FracVal.val]
  have hle : ¬ ((0 : Rat) < w.2.val) := by
    have := hmin (j, liveRatio inst j) hjpair
    rw [hjval] at this
    exact this
  -- every live ratio is non-negative, so the minimum value is 0
  obtain ⟨jw, _, hjw⟩ := by
    rw [ratiosList, List.mem_map] at hwmem
    exact hwmem
  have hwval : 0 ≤ w.2.val := by
    rw [← hjw]
    exact liveRatio_val_nonneg inst jw hg
  have hval0 : w.2.val = 0 := le_antisymm (le_of_not_lt hle) hwval
  have hden : 0 < w.2.den := by
    rw [← hjw]
    exact liveRatio_den_pos inst jw
  rw [FracVal.val] at hval0
  have hdenne : ((w.2.den : Rat)) ≠ 0 := by
    intro hc
    rw [show ((w.2.den : Rat) = 0) ↔ w.2.den = 0 from by exact_mod_cast Iff.rfl]
      at hc
    omega
  rcases div_eq_zero_iff.mp hval0 with h0 | h0
  · exact h0
  · exact absurd h0 hdenne

/-- Witness for the amended C3 at spec scenario 3 (zero-footprint
project 0 selected). -/
theorem claim_C3_witness :
    (∀ g ∈ scnInstance3.gains, 0 ≤ g) ∧
    (0 : Nat) < ([true, true] : List Bool).length ∧
    ([true, true] : List Bool).getD 0 false = true ∧
    colSum scnInstance3 0 = 0 ∧
    (liveRatio scnInstance3 0 = ⟨0, 1⟩ ∧
     (∀ w, argminKey (ratiosList scnInstance3 [true, true]) = some w →
        w.2.num = 0) ∧
     stepA scnInstance3 [true, true] = some [false, true] ∧
     stepA scnInstance3 [false, true] = some [false, false] ∧
     repair_solution scnInstance3 [true, true] = some [false, false] ∧
     majorant scnInstance3 [false, false] = 0) :=
  ⟨by decide, by decide, by decide, by decide,
    claim_C3 scnInstance3 [true, true] 0 (by decide) (by decide) (by decide)
      (by decide)⟩

/-- Claim C5: with non-negative weights, one iteration of either repair
loop can only shrink the per-resource consumption vector
component-wise (the iteration writes a 0 into the selection, removing
a non-negative contribution from every resource row). -/
theorem claim_C5 (inst : Instance)
    (hw : ∀ row ∈ inst.weights, ∀ w ∈ row, 0 ≤ w) :
    (∀ s s2 : List Bool, stepA inst s = some s2 →
      ∀ i, (consumption inst s2).getD i 0 ≤ (consumption inst s).getD i 0) ∧
    (∀ (si : List Nat) (s s2 : List Bool) (i i2 : Nat),
      stepB si s i = some (s2, i2) →
      ∀ r, (consumption inst s2).getD r 0 ≤ (consumption inst s).getD r 0) := by
  constructor
  · intro s s2 h i
    obtain ⟨k, _, _, hset⟩ := stepA_spec h
    rw [hset]
    exact consumption_set_false_le inst s k hw i
  · intro si s s2 i i2 h r
    obtain ⟨k, _, hset, _⟩ := stepB_spec h
    rw [hset]
    exact consumption_set_false_le inst s k hw r

/-- Witness for C5 at spec scenario 2. -/
theorem claim_C5_witness :
    (∀ row ∈ scnInstance2.weights, ∀ w ∈ row, 0 ≤ w) ∧
    stepA scnInstance2 [true, true, true] = some [true, true, false] ∧
    (consumption scnInstance2 [true, true, false]).getD 0 0
      ≤ (consumption scnInstance2 [true, true, true]).getD 0 0 :=
  ⟨by decide, by decide,
    (claim_C5 scnInstance2 (by decide)).1 [true, true, true] [true, true, false]
      (by decide) 0⟩

/-- Counterexample to claim C7: in the ratio-ordered fill, the ratio of
a project with surrogate weight 0 and positive profit is NOT treated as
0: it is the unguarded numpy division result `+inf`, which ranks the
project FIRST (best) — with profits `[3,10]` and surrogate weights
`[0,5]` the computed ratios are `[+inf, 2]` and the rank order is
`[0,1]`, whereas the edge-case policy of repair (ratio 0, the worst)
would place project 0 last. -/
theorem claim_C7_counterexample :
    List.zipWith npDiv [(3 : Rat), 10] [(0 : Int), 5]
      = [NpVal.posInf, NpVal.fin 10 5] ∧
    NpVal.posInf ≠ NpVal.fin 0 1 ∧
    (glouton_heuristic [3, 10] [0, 5] 4).2 = [0, 1] := by decide

/-- Claim C7 (amended): the fill's division is unguarded; for surrogate
weight 0 and positive profit, numpy's elementwise division yields
`+inf`, not the ratio-0 policy that repair applies — and in the
descending ratio order (ascending order of negated ratios) such a
project precedes every project whose own ratio is not also `+inf`.
The edge-case policy is therefore not shared between the fill and
repair. -/
theorem claim_C7 (p : Rat) (hp : 0 < p) :
    npDiv p 0 = NpVal.posInf ∧
    npDiv p 0 ≠ NpVal.fin 0 1 ∧
    (∀ (q : Rat) (w : Int), npDiv q w = NpVal.posInf ∨
      npLt (npNeg (npDiv p 0)) (npNeg (npDiv q w)) = true) := by
  have h1 : npDiv p 0 = NpVal.posInf := by
    rw [npDiv]
    simp [hp]
  refine ⟨h1, by rw [h1]; intro h; exact NpVal.noConfusion h, ?_⟩
  intro q w
  rw [h1]
  cases hqw : npDiv q w with
  | fin a c => right; rw [npNeg]; rfl
  | posInf => left; rfl
  | negInf => right; rfl
  | nan => right; rfl

/-- Witness for the amended C7 at profit 3. -/
theorem claim_C7_witness :
    (0 : Rat) < 3 ∧
    (npDiv 3 0 = NpVal.posInf ∧
     npDiv 3 0 ≠ NpVal.fin 0 1 ∧
     (∀ (q : Rat) (w : Int), npDiv q w = NpVal.posInf ∨
        npLt (npNeg (npDiv 3 0)) (npNeg (npDiv q w)) = true)) :=
  ⟨by norm_num, claim_C7 3 (by norm_num)⟩

/-- Counterexample to claim C8: `read_instances` does not validate the
capacity count.  On `shortCapLines` the header declares 2 resources but
the capacity line holds a single token and the file ends: construction
nevertheless succeeds, returning an instance whose capacity list has
length 1 ≠ 2 — not a `FormatError`, and an invalid instance is
returned.  (`parse_instance`, by contrast, raises on this input.) -/
theorem claim_C8_counterexample :
    read_instances shortCapLines
      = .ok [⟨2, 2, 10, [3, 4], [[1, 1], [2, 2]], [5]⟩] ∧
    ((([5] : List Int).length : Int) ≠ (2 : Int)) := by decide

/-- Claim C8 (amended): `parse_instance` never returns an instance with
fewer tokens than declared in profits, any weight row, or capacities
(reaching end-of-input in any of those collections raises an error);
`read_instances` enforces an exact profit count and at-least-declared
weight rows, but does not check the capacity count at all: on
`shortCapLines` (capacity line one token short, then end of input)
`parse_instance` raises while `read_instances` returns the partially
invalid instance.  Neither parser rejects surplus tokens everywhere,
so "succeeds only on fully valid input" holds for neither. -/
theorem claim_C8 :
    (∀ (lines : List (List Int)) (res : List ParsedInstance),
      parse_instance lines = .ok res → ∀ inst ∈ res, parseChecked inst) ∧
    (∀ (lines : List (List Int)) (res : List ParsedInstance),
      read_instances lines = .ok res → ∀ inst ∈ res, readChecked inst) ∧
    parse_instance shortCapLines = .error "IndexError" ∧
    read_instances shortCapLines
      = .ok [⟨2, 2, 10, [3, 4], [[1, 1], [2, 2]], [5]⟩] := by
  refine ⟨?_, ?_, by decide, by decide⟩
  · intro lines res h
    exact parse_instance_ok h
  · intro lines res h
    exact read_instances_ok h
